import Mathlib

/-!
Verification development for the racetrack tournament runner.

Each definition is a shallow embedding of the corresponding Rust item,
with machine integers modelled as `Nat`/`Int`, fallible or panicking code
modelled with `Option`, and the `f64` arithmetic of the statistics code
modelled exactly over `ℚ` (rounding error of IEEE doubles is far below
every margin used in the statements below).
-/

namespace Racetrack

/-- `EngineId` (tournament.rs): small 0-based integer identifying an engine. -/
structure EngineId where
  val : Nat
deriving DecidableEq, Repr

/-- `TournamentType` (tournament.rs). The Rust `Gauntlet` payload is a
`NonZeroUsize`; here it is a `Nat`, with positivity carried as a hypothesis
where a claim needs it. -/
inductive TournamentType where
  | gauntlet (num_challengers : Nat)
  | roundRobin (num_engines : Nat)
  | bookTest (num_engines : Nat)
  | sprt
deriving DecidableEq, Repr

/-- `TournamentType::num_engines` (tournament.rs). -/
def TournamentType.num_engines : TournamentType → Nat
  | .gauntlet num_challengers => num_challengers + 1
  | .roundRobin n => n
  | .bookTest n => n
  | .sprt => 2

/-- `TournamentType::alignment` (tournament.rs): number of games before every
pair of opponents has played a round. -/
def TournamentType.alignment : TournamentType → Nat
  | .gauntlet num_challengers => num_challengers * 2
  | .roundRobin n => n * (n - 1)
  | .bookTest n => n * n
  | .sprt => 2

/-- `ScheduledGame` (game.rs), with the opening kept abstract. -/
structure ScheduledGame (O : Type) where
  round_number : Nat
  opening : O
  white_engine_id : EngineId
  black_engine_id : EngineId
  size : Nat

/-- The slice of `TournamentSettings` (tournament.rs) that `schedule` reads. -/
structure TournamentSettings (O : Type) where
  size : Nat
  num_games : Nat
  openings : List O
  openings_start_index : Nat
  tournament_type : TournamentType

/-- `Option`-valued traversal of a list: `some` iff `f` succeeds on every
element, keeping the order. Used to model Rust iterator-with-panic loops. -/
def traverseOption {α β : Type} (f : α → Option β) (l : List α) : Option (List β) :=
  match l with
  | [] => some []
  | a :: t =>
      match f a, traverseOption f t with
      | some b, some bs => some (b :: bs)
      | _, _ => none

/-- `TournamentSettings::schedule` (tournament.rs:68-131). A pure function of
the settings; the Rust indexing `self.openings[i]` panics on an empty openings
list, modelled by `Option` via `traverseOption`. -/
def schedule {O : Type} (s : TournamentSettings O) : Option (List (ScheduledGame O)) :=
  match s.tournament_type with
  | .gauntlet num_challengers =>
      traverseOption (l := List.range s.num_games) fun round_number =>
        (s.openings[(s.openings_start_index +
            round_number / (TournamentType.gauntlet num_challengers).alignment) %
            s.openings.length]?).map fun opening =>
          { round_number := round_number
            opening := opening
            white_engine_id :=
              if (round_number / num_challengers) % 2 = 0 then ⟨0⟩
              else ⟨round_number % num_challengers + 1⟩
            black_engine_id :=
              if (round_number / num_challengers) % 2 = 1 then ⟨0⟩
              else ⟨round_number % num_challengers + 1⟩
            size := s.size }
  | .bookTest num_engines =>
      traverseOption (l := List.range s.num_games) fun round_number =>
        (s.openings[(s.openings_start_index +
            round_number / (TournamentType.bookTest num_engines).alignment) %
            s.openings.length]?).map fun opening =>
          { round_number := round_number
            opening := opening
            white_engine_id := ⟨(round_number / num_engines) % num_engines⟩
            black_engine_id := ⟨round_number % num_engines⟩
            size := s.size }
  | .roundRobin num_engines =>
      traverseOption (l := List.range s.num_games) fun round_number =>
        (s.openings[(s.openings_start_index +
            round_number / (num_engines * (num_engines - 1))) %
            s.openings.length]?).map fun opening =>
          { round_number := round_number
            opening := opening
            white_engine_id := ⟨(round_number / (num_engines - 1)) % num_engines⟩
            black_engine_id :=
              ⟨(round_number +
                  (round_number % (num_engines * (num_engines - 1))) / num_engines + 1) %
                num_engines⟩
            size := s.size }
  | .sprt =>
      traverseOption (l := List.range s.num_games) fun round_number =>
        (s.openings[(s.openings_start_index + round_number / 2) %
            s.openings.length]?).map fun opening =>
          { round_number := round_number
            opening := opening
            white_engine_id := ⟨round_number % 2⟩
            black_engine_id := ⟨(round_number + 1) % 2⟩
            size := s.size }

theorem traverseOption_eq_map_of_forall {α β : Type} (f : α → Option β) (g : α → β) :
    ∀ l : List α, (∀ a ∈ l, f a = some (g a)) → traverseOption f l = some (l.map g) := by
  intro l
  induction l with
  | nil => intro _; rfl
  | cons a t ih =>
      intro h
      have ha : f a = some (g a) := h a (List.mem_cons_self a t)
      have ht : traverseOption f t = some (t.map g) :=
        ih fun x hx => h x (List.mem_cons_of_mem a hx)
      simp [traverseOption, ha, ht]

theorem mem_of_traverseOption_eq_some {α β : Type} (f : α → Option β) :
    ∀ (l : List α) (bs : List β), traverseOption f l = some bs →
      ∀ b ∈ bs, ∃ a ∈ l, f a = some b := by
  intro l
  induction l with
  | nil =>
      intro bs h b hb
      simp [traverseOption] at h
      subst h
      simp at hb
  | cons a t ih =>
      intro bs h b hb
      rw [traverseOption] at h
      cases hfa : f a with
      | none => simp [hfa] at h
      | some b0 =>
          cases hmt : traverseOption f t with
          | none => simp [hfa, hmt] at h
          | some bs0 =>
              simp [hfa, hmt] at h
              subst h
              rcases List.mem_cons.mp hb with hb0 | hbs
              · exact ⟨a, List.mem_cons_self a t, by rw [hfa, hb0]⟩
              · rcases ih bs0 hmt b hbs with ⟨x, hx, hfx⟩
                exact ⟨x, List.mem_cons_of_mem a hx, hfx⟩

theorem getElem?_pos_of_ne_nil {α : Type} (l : List α) (i : Nat) (h : l ≠ []) :
    ∃ x, l[i % l.length]? = some x := by
  have hlen : 0 < l.length := List.length_pos.mpr h
  have : i % l.length < l.length := Nat.mod_lt _ hlen
  exact ⟨l.get ⟨i % l.length, this⟩, List.getElem?_eq_getElem this⟩

/-- C1: for an SPRT (equivalently head-to-head) configuration with a non-empty
openings list, `schedule` returns exactly `num_games` games; round `r` has
white id `r % 2`, black id `1 - r % 2`, and the opening at index
`(openings_start_index + r / 2) % |openings|`; the head-to-head shape
(`RoundRobin 2`) yields the identical schedule. Purity and determinism are
inherent to the embedding: `schedule` is a function of the settings alone. -/
theorem sprt_schedule_spec {O : Type} (s : TournamentSettings O)
    (htt : s.tournament_type = .sprt) (hop : s.openings ≠ []) :
    ∃ gs, schedule s = some gs ∧ gs.length = s.num_games ∧
      (∀ r, r < s.num_games →
        ∃ g, gs[r]? = some g ∧ g.round_number = r ∧
          g.white_engine_id = ⟨r % 2⟩ ∧ g.black_engine_id = ⟨1 - r % 2⟩ ∧
          s.openings[(s.openings_start_index + r / 2) % s.openings.length]? = some g.opening ∧
          g.size = s.size) ∧
      schedule { s with tournament_type := .roundRobin 2 } = schedule s := by
  have hlen : 0 < s.openings.length := List.length_pos.mpr hop
  have hIdx : ∀ r : Nat,
      (s.openings_start_index + r / 2) % s.openings.length < s.openings.length :=
    fun r => Nat.mod_lt _ hlen
  refine ⟨(List.range s.num_games).map fun r =>
    { round_number := r
      opening := s.openings.get ⟨(s.openings_start_index + r / 2) % s.openings.length, hIdx r⟩
      white_engine_id := ⟨r % 2⟩
      black_engine_id := ⟨(r + 1) % 2⟩
      size := s.size }, ?_, ?_, ?_, ?_⟩
  · simp only [schedule, htt]
    apply traverseOption_eq_map_of_forall
    intro r _
    rw [List.getElem?_eq_getElem (hIdx r)]
    simp
  · simp
  · intro r hr
    refine ⟨⟨r, s.openings.get ⟨(s.openings_start_index + r / 2) % s.openings.length, hIdx r⟩,
      ⟨r % 2⟩, ⟨(r + 1) % 2⟩, s.size⟩, ?_, rfl, rfl, ?_, ?_, rfl⟩
    · simp [List.getElem?_map, List.getElem?_range, hr]
    · simp only
      congr 1
      omega
    · rw [List.getElem?_eq_getElem (hIdx r)]
      simp
  · simp only [schedule, htt]
    apply congrArg (fun f => traverseOption f (List.range s.num_games))
    funext r
    have h2 : 2 * (2 - 1) = 2 := rfl
    have hdiv1 : r / (2 - 1) = r := Nat.div_one r
    have hb : (r + r % (2 * (2 - 1)) / 2 + 1) % 2 = (r + 1) % 2 := by omega
    simp only [h2, hdiv1, hb]

/-- Concrete SPRT configuration used by the C1 witness. -/
def sprtCfg : TournamentSettings Nat :=
  { size := 5, num_games := 4, openings := [10, 11], openings_start_index := 0
    tournament_type := .sprt }

theorem sprt_schedule_spec_witness :
    (sprtCfg.tournament_type = .sprt ∧ sprtCfg.openings ≠ []) ∧
    (∃ gs, schedule sprtCfg = some gs ∧ gs.length = sprtCfg.num_games ∧
      (∀ r, r < sprtCfg.num_games →
        ∃ g, gs[r]? = some g ∧ g.round_number = r ∧
          g.white_engine_id = ⟨r % 2⟩ ∧ g.black_engine_id = ⟨1 - r % 2⟩ ∧
          sprtCfg.openings[(sprtCfg.openings_start_index + r / 2) %
            sprtCfg.openings.length]? = some g.opening ∧
          g.size = sprtCfg.size) ∧
      schedule { sprtCfg with tournament_type := .roundRobin 2 } = schedule sprtCfg) :=
  ⟨⟨rfl, by decide⟩, sprt_schedule_spec sprtCfg rfl (by decide)⟩

/-- C8: for a `Gauntlet C` configuration (`C ≥ 1`) the champion (id 0) is white
and challenger `(r % C) + 1` black when `(r / C) % 2 = 0`, with roles swapped
otherwise; consequently the champion plays in every round. -/
theorem gauntlet_schedule_spec {O : Type} (s : TournamentSettings O) (c : Nat)
    (htt : s.tournament_type = .gauntlet c) (_hc : 1 ≤ c) (hop : s.openings ≠ []) :
    ∃ gs, schedule s = some gs ∧ gs.length = s.num_games ∧
      ∀ r, r < s.num_games →
        ∃ g, gs[r]? = some g ∧ g.round_number = r ∧
          (if (r / c) % 2 = 0
            then g.white_engine_id = ⟨0⟩ ∧ g.black_engine_id = ⟨r % c + 1⟩
            else g.white_engine_id = ⟨r % c + 1⟩ ∧ g.black_engine_id = ⟨0⟩) ∧
          (g.white_engine_id = ⟨0⟩ ∨ g.black_engine_id = ⟨0⟩) := by
  have hlen : 0 < s.openings.length := List.length_pos.mpr hop
  have hIdx : ∀ r : Nat,
      (s.openings_start_index + r / (TournamentType.gauntlet c).alignment) %
        s.openings.length < s.openings.length :=
    fun r => Nat.mod_lt _ hlen
  refine ⟨(List.range s.num_games).map fun r =>
    { round_number := r
      opening := s.openings.get
        ⟨(s.openings_start_index + r / (TournamentType.gauntlet c).alignment) %
          s.openings.length, hIdx r⟩
      white_engine_id := if (r / c) % 2 = 0 then ⟨0⟩ else ⟨r % c + 1⟩
      black_engine_id := if (r / c) % 2 = 1 then ⟨0⟩ else ⟨r % c + 1⟩
      size := s.size }, ?_, ?_, ?_⟩
  · simp only [schedule, htt]
    apply traverseOption_eq_map_of_forall
    intro r _
    rw [List.getElem?_eq_getElem (hIdx r)]
    simp
  · simp
  · intro r hr
    refine ⟨⟨r, s.openings.get
        ⟨(s.openings_start_index + r / (TournamentType.gauntlet c).alignment) %
          s.openings.length, hIdx r⟩,
      if (r / c) % 2 = 0 then ⟨0⟩ else ⟨r % c + 1⟩,
      if (r / c) % 2 = 1 then ⟨0⟩ else ⟨r % c + 1⟩, s.size⟩,
      by simp [List.getElem?_map, List.getElem?_range, hr], rfl, ?_, ?_⟩
    · by_cases h0 : (r / c) % 2 = 0
      · have h1 : ¬ (r / c) % 2 = 1 := by omega
        simp [h0, h1]
      · have h1 : (r / c) % 2 = 1 := by omega
        simp [h0, h1]
    · by_cases h0 : (r / c) % 2 = 0
      · simp [h0]
      · have h1 : (r / c) % 2 = 1 := by omega
        right
        simp [h1]

/-- Concrete gauntlet configuration used by the C8 witness. -/
def gauntletCfg : TournamentSettings Nat :=
  { size := 6, num_games := 8, openings := [20, 21], openings_start_index := 0
    tournament_type := .gauntlet 2 }

theorem gauntlet_schedule_spec_witness :
    (gauntletCfg.tournament_type = .gauntlet 2 ∧ 1 ≤ 2 ∧ gauntletCfg.openings ≠ []) ∧
    (∃ gs, schedule gauntletCfg = some gs ∧ gs.length = gauntletCfg.num_games ∧
      ∀ r, r < gauntletCfg.num_games →
        ∃ g, gs[r]? = some g ∧ g.round_number = r ∧
          (if (r / 2) % 2 = 0
            then g.white_engine_id = ⟨0⟩ ∧ g.black_engine_id = ⟨r % 2 + 1⟩
            else g.white_engine_id = ⟨r % 2 + 1⟩ ∧ g.black_engine_id = ⟨0⟩) ∧
          (g.white_engine_id = ⟨0⟩ ∨ g.black_engine_id = ⟨0⟩)) :=
  ⟨⟨rfl, by decide, by decide⟩,
    gauntlet_schedule_spec gauntletCfg 2 rfl (by decide) (by decide)⟩

theorem rr_aux (P r : Nat) (hP : 1 ≤ P) :
    (r / P) % (P + 1) ≠ (r + r % ((P + 1) * P) / (P + 1) + 1) % (P + 1) := by
  set A := (P + 1) * P with hA
  have hApos : 0 < A := by positivity
  set q := r % A with hq
  have hqA : q < A := Nat.mod_lt _ hApos
  have h0 : q + A * (r / A) = r := Nat.mod_add_div r A
  set a := q / P with ha
  set b := q % P with hb
  have hbP : b < P := Nat.mod_lt _ (by omega)
  have hqab : P * a + b = q := Nat.div_add_mod q P
  have haP : a < P + 1 := by
    rw [ha]
    exact Nat.div_lt_of_lt_mul (by rw [Nat.mul_comm]; exact hqA)
  have hwhite : (r / P) % (P + 1) = a := by
    have h1 : r = q + P * ((P + 1) * (r / A)) := by
      calc r = q + A * (r / A) := h0.symm
        _ = q + P * ((P + 1) * (r / A)) := by rw [hA]; ring
    rw [h1, Nat.add_mul_div_left _ _ (show 0 < P by omega), Nat.add_mul_mod_self_left,
      ← ha, Nat.mod_eq_of_lt haP]
  have hblack : (r + q / (P + 1) + 1) % (P + 1) = (q + q / (P + 1) + 1) % (P + 1) := by
    have h1 : r + q / (P + 1) + 1 = q + q / (P + 1) + 1 + (P + 1) * (P * (r / A)) := by
      calc r + q / (P + 1) + 1 = (q + A * (r / A)) + q / (P + 1) + 1 := by rw [h0]
        _ = q + q / (P + 1) + 1 + (P + 1) * (P * (r / A)) := by rw [hA]; ring
    rw [h1, Nat.add_mul_mod_self_left]
  rw [hwhite, hblack]
  clear_value a b q A
  rcases Nat.lt_or_ge b a with hba | hba
  · -- b < a: the mover `a` pairs with `b`
    obtain ⟨c, rfl⟩ : ∃ c, a = c + 1 := ⟨a - 1, by omega⟩
    have hq' : q = P * c + P + b := by rw [← hqab]; ring
    have hdiv : q / (P + 1) = c := by
      apply Nat.div_eq_of_lt_le
      · calc c * (P + 1) = P * c + c := by ring
          _ ≤ P * c + (P + b) := by omega
          _ = q := by omega
      · calc q = P * c + P + b := hq'
          _ < P * c + P + (c + 1) := by omega
          _ = (c + 1) * (P + 1) := by ring
    rw [hdiv]
    have h3 : q + c + 1 = b + (P + 1) * (c + 1) := by
      rw [hq']
      ring
    rw [h3, Nat.add_mul_mod_self_left, Nat.mod_eq_of_lt (show b < P + 1 by omega)]
    omega
  · -- a ≤ b: the mover `a` pairs with `b + 1`
    have hdiv : q / (P + 1) = a := by
      apply Nat.div_eq_of_lt_le
      · calc a * (P + 1) = P * a + a := by ring
          _ ≤ P * a + b := by omega
          _ = q := hqab
      · calc q = P * a + b := hqab.symm
          _ < P * a + (a + P + 1) := by omega
          _ = (a + 1) * (P + 1) := by ring
    rw [hdiv]
    have h3 : q + a + 1 = (b + 1) + (P + 1) * a := by
      rw [← hqab]
      ring
    rw [h3, Nat.add_mul_mod_self_left, Nat.mod_eq_of_lt (show b + 1 < P + 1 by omega)]
    omega

/-- C4: for every configuration whose shape is `Sprt`, `Gauntlet C` with
`C ≥ 1`, or `RoundRobin N` with `N ≥ 2`, every scheduled game has distinct
white and black engine ids. -/
theorem schedule_no_self_pairing {O : Type} (s : TournamentSettings O)
    (gs : List (ScheduledGame O))
    (htt : s.tournament_type = .sprt ∨
      (∃ c, 1 ≤ c ∧ s.tournament_type = .gauntlet c) ∨
      (∃ n, 2 ≤ n ∧ s.tournament_type = .roundRobin n))
    (hgs : schedule s = some gs) :
    ∀ g ∈ gs, g.white_engine_id ≠ g.black_engine_id := by
  intro g hg
  rcases htt with htt | ⟨c, hc, htt⟩ | ⟨n, hn, htt⟩
  · rw [schedule, htt] at hgs
    rcases mem_of_traverseOption_eq_some _ _ _ hgs g hg with ⟨r, _, hfr⟩
    rcases Option.map_eq_some'.mp hfr with ⟨op, _, hgdef⟩
    rw [← hgdef]
    simp only [ne_eq, EngineId.mk.injEq]
    omega
  · rw [schedule, htt] at hgs
    rcases mem_of_traverseOption_eq_some _ _ _ hgs g hg with ⟨r, _, hfr⟩
    rcases Option.map_eq_some'.mp hfr with ⟨op, _, hgdef⟩
    rw [← hgdef]
    by_cases h0 : (r / c) % 2 = 0
    · have h1 : ¬ (r / c) % 2 = 1 := by omega
      simp [h0, h1]
    · have h1 : (r / c) % 2 = 1 := by omega
      simp [h0, h1]
  · rw [schedule, htt] at hgs
    rcases mem_of_traverseOption_eq_some _ _ _ hgs g hg with ⟨r, _, hfr⟩
    rcases Option.map_eq_some'.mp hfr with ⟨op, _, hgdef⟩
    rw [← hgdef]
    simp only [ne_eq, EngineId.mk.injEq]
    obtain ⟨P, rfl⟩ : ∃ P, n = P + 1 := ⟨n - 1, by omega⟩
    have := rr_aux P r (by omega)
    simpa using this

/-- Concrete round-robin configuration used by the C4 witness. -/
def rr3Cfg : TournamentSettings Nat :=
  { size := 5, num_games := 6, openings := [30], openings_start_index := 0
    tournament_type := .roundRobin 3 }

theorem schedule_no_self_pairing_witness :
    (rr3Cfg.tournament_type = .sprt ∨
      (∃ c, 1 ≤ c ∧ rr3Cfg.tournament_type = .gauntlet c) ∨
      (∃ n, 2 ≤ n ∧ rr3Cfg.tournament_type = .roundRobin n)) ∧
    (∀ g ∈ (schedule rr3Cfg).getD [], g.white_engine_id ≠ g.black_engine_id) :=
  ⟨Or.inr (Or.inr ⟨3, by omega, rfl⟩),
    schedule_no_self_pairing rr3Cfg ((schedule rr3Cfg).getD [])
      (Or.inr (Or.inr ⟨3, by omega, rfl⟩)) rfl⟩

/-- `TrinomialResult` (stats.rs). -/
structure TrinomialResult where
  w : Nat
  d : Nat
  l : Nat
deriving DecidableEq, Repr

/-- `PentanomialResult` (stats.rs). -/
structure PentanomialResult where
  ll : Nat
  dl : Nat
  dd : Nat
  wl : Nat
  wd : Nat
  ww : Nat
deriving DecidableEq, Repr

/-- `ResultExt::to_vec` for `TrinomialResult` (stats.rs:98-100). -/
def TrinomialResult.to_vec (t : TrinomialResult) : List Nat := [t.l, t.d, t.w]

/-- `ResultExt::scores_map` for `TrinomialResult` (stats.rs:94-96),
`f64` values modelled exactly in `ℚ`. -/
def TrinomialResult.scores_map : List ℚ := [0, 1/2, 1]

/-- `ResultExt::to_vec` for `PentanomialResult` (stats.rs:108-110). -/
def PentanomialResult.to_vec (p : PentanomialResult) : List Nat :=
  [p.ll, p.dl, p.dd + p.wl, p.wd, p.ww]

/-- `ResultExt::scores_map` for `PentanomialResult` (stats.rs:104-106). -/
def PentanomialResult.scores_map : List ℚ := [0, 1/4, 1/2, 3/4, 1]

/-- `ResultExt::count` (stats.rs:27-29), over the count vector. -/
def countOf (v : List Nat) : Nat := v.sum

/-- `ResultExt::probability_distribution` (stats.rs:31-39), the `f64`
arithmetic modelled exactly in `ℚ` (the literal `0.001` is taken as
`1/1000`). Note the code adds `regularisation` to every entry of `v`,
not only to the zero entries. -/
def probability_distribution (v : List Nat) : List ℚ :=
  let n : ℚ := (countOf v : ℚ)
  let zeros : Nat := (v.filter fun x => x = 0).length
  let regularisation : ℚ := if 0 < zeros then (1 / 1000) / (zeros : ℚ) else 0
  v.map fun (x : Nat) => ((x : ℚ) + regularisation) / (n + regularisation * (v.length : ℚ))

/-- `ResultExt::score` (stats.rs:41-44): dot product of the regularised pdf
with the scores map. -/
def score (v : List Nat) (scores : List ℚ) : ℚ :=
  (((probability_distribution v).zip scores).map fun p => p.1 * p.2).sum

/-- `ResultExt::variance` (stats.rs:46-55). -/
def variance (v : List Nat) (scores : List ℚ) : ℚ :=
  let pdf := probability_distribution v
  let mean := score v scores
  ((pdf.zip scores).map fun p => p.1 * (p.2 - mean) ^ 2).sum

/-- Modelled from the spec: a regularised pdf that adds `0.001/zero_count`
only to the zero-count categories (when at least one count is zero) and
divides through by the renormalised total. Stated only to compare with the
code's `probability_distribution`. -/
def spec_probability_distribution (v : List Nat) : List ℚ :=
  let zeros : Nat := (v.filter fun x => x = 0).length
  let reg : ℚ := if 0 < zeros then (1 / 1000) / (zeros : ℚ) else 0
  let total : ℚ := (countOf v : ℚ) + reg * (zeros : ℚ)
  v.map fun (x : Nat) => if x = 0 then ((x : ℚ) + reg) / total else (x : ℚ) / total

/-- C6 counterexample: on the pentanomial tally with `ll = 1` and all other
categories zero, the code's regularised pdf differs from the spec's
"add only to the zero-count categories" pdf: the code yields `4001/4005`
for the first category, the spec's rule `1000/1001`. -/
theorem probability_distribution_ne_spec :
    probability_distribution (PentanomialResult.to_vec ⟨1, 0, 0, 0, 0, 0⟩) ≠
      spec_probability_distribution (PentanomialResult.to_vec ⟨1, 0, 0, 0, 0, 0⟩) ∧
    probability_distribution (PentanomialResult.to_vec ⟨1, 0, 0, 0, 0, 0⟩) =
      [4001/4005, 1/4005, 1/4005, 1/4005, 1/4005] ∧
    spec_probability_distribution (PentanomialResult.to_vec ⟨1, 0, 0, 0, 0, 0⟩) =
      [1000/1001, 1/4004, 1/4004, 1/4004, 1/4004] := by
  have h1 : probability_distribution (PentanomialResult.to_vec ⟨1, 0, 0, 0, 0, 0⟩) =
      [4001/4005, 1/4005, 1/4005, 1/4005, 1/4005] := by
    simp only [probability_distribution, PentanomialResult.to_vec, countOf]
    norm_num
  have h2 : spec_probability_distribution (PentanomialResult.to_vec ⟨1, 0, 0, 0, 0, 0⟩) =
      [1000/1001, 1/4004, 1/4004, 1/4004, 1/4004] := by
    simp only [spec_probability_distribution, PentanomialResult.to_vec, countOf]
    norm_num
  refine ⟨?_, h1, h2⟩
  rw [h1, h2]
  simp only [ne_eq, List.cons.injEq, not_and]
  intro h
  norm_num at h

/-- C6 amended: the regularised pdf adds `0.001/zero_count` to every
category (when at least one count is zero) and divides by the renormalised
total `n + (0.001/zero_count)·len`; the score and variance are
`μ = Σ pᵢ sᵢ` and `σ² = Σ pᵢ (sᵢ − μ)²` over the scores
`(0, 1/4, 1/2, 3/4, 1)` for `(LL, DL, DD+WL, WD, WW)` and
`(0, 1/2, 1)` for `(L, D, W)`. -/
theorem regularised_pdf_score_variance (p : PentanomialResult) (t : TrinomialResult) :
    (let v := p.to_vec
     let n : ℚ := (countOf v : ℚ)
     let zeros : Nat := (v.filter fun x => x = 0).length
     let reg : ℚ := if 0 < zeros then (1 / 1000) / (zeros : ℚ) else 0
     let denom : ℚ := n + reg * 5
     probability_distribution v =
        [((p.ll : ℚ) + reg) / denom, ((p.dl : ℚ) + reg) / denom,
         ((p.dd : ℚ) + (p.wl : ℚ) + reg) / denom, ((p.wd : ℚ) + reg) / denom,
         ((p.ww : ℚ) + reg) / denom] ∧
     score v PentanomialResult.scores_map =
        ((p.ll : ℚ) + reg) / denom * 0 + ((p.dl : ℚ) + reg) / denom * (1/4) +
          ((p.dd : ℚ) + (p.wl : ℚ) + reg) / denom * (1/2) +
          ((p.wd : ℚ) + reg) / denom * (3/4) + ((p.ww : ℚ) + reg) / denom * 1 ∧
     variance v PentanomialResult.scores_map =
        ((p.ll : ℚ) + reg) / denom * (0 - score v PentanomialResult.scores_map) ^ 2 +
         ((p.dl : ℚ) + reg) / denom * (1/4 - score v PentanomialResult.scores_map) ^ 2 +
         ((p.dd : ℚ) + (p.wl : ℚ) + reg) / denom *
           (1/2 - score v PentanomialResult.scores_map) ^ 2 +
         ((p.wd : ℚ) + reg) / denom * (3/4 - score v PentanomialResult.scores_map) ^ 2 +
         ((p.ww : ℚ) + reg) / denom * (1 - score v PentanomialResult.scores_map) ^ 2) ∧
    (let v := t.to_vec
     let n : ℚ := (countOf v : ℚ)
     let zeros : Nat := (v.filter fun x => x = 0).length
     let reg : ℚ := if 0 < zeros then (1 / 1000) / (zeros : ℚ) else 0
     let denom : ℚ := n + reg * 3
     probability_distribution v =
        [((t.l : ℚ) + reg) / denom, ((t.d : ℚ) + reg) / denom, ((t.w : ℚ) + reg) / denom] ∧
     score v TrinomialResult.scores_map =
        ((t.l : ℚ) + reg) / denom * 0 + ((t.d : ℚ) + reg) / denom * (1/2) +
          ((t.w : ℚ) + reg) / denom * 1) := by
  refine ⟨⟨?_, ?_, ?_⟩, ?_, ?_⟩
  · simp only [probability_distribution, PentanomialResult.to_vec, countOf, List.map_cons,
      List.map_nil, List.length_cons, List.length_nil, List.sum_cons, List.sum_nil,
      List.cons.injEq, and_true]
    refine ⟨?_, ?_, ?_, ?_, ?_⟩ <;> (push_cast; ring_nf)
  · simp only [score, probability_distribution, PentanomialResult.to_vec,
      PentanomialResult.scores_map, countOf, List.map_cons, List.map_nil, List.length_cons,
      List.length_nil, List.sum_cons, List.sum_nil, List.zip_cons_cons, List.zip_nil_right]
    push_cast
    ring_nf
  · simp only [variance, probability_distribution, PentanomialResult.to_vec,
      PentanomialResult.scores_map, countOf, List.map_cons, List.map_nil, List.length_cons,
      List.length_nil, List.sum_cons, List.sum_nil, List.zip_cons_cons, List.zip_nil_right]
    push_cast
    ring_nf
  · simp only [probability_distribution, TrinomialResult.to_vec, countOf, List.map_cons,
      List.map_nil, List.length_cons, List.length_nil, List.sum_cons, List.sum_nil,
      List.cons.injEq, and_true]
    refine ⟨?_, ?_, ?_⟩ <;> (push_cast; ring_nf)
  · simp only [score, probability_distribution, TrinomialResult.to_vec,
      TrinomialResult.scores_map, countOf, List.map_cons, List.map_nil, List.length_cons,
      List.length_nil, List.sum_cons, List.sum_nil, List.zip_cons_cons, List.zip_nil_right]
    push_cast
    ring_nf

/-- `board_game_traits::GameResult`. -/
inductive GameResult where
  | whiteWin
  | blackWin
  | draw
deriving DecidableEq, Repr

/-- Rust `slice::chunks(2)`: consecutive chunks of size two, the last chunk
possibly a singleton. -/
def chunks2 {α : Type} : List α → List (List α)
  | [] => []
  | [a] => [[a]]
  | a :: b :: rest => [a, b] :: chunks2 rest

/-- One step of the pair classification in `Tournament::sprt_penta_stats`
(tournament.rs:521-531), matching on `(result1, result2)`. -/
def penta_add (acc : PentanomialResult) (r1 r2 : GameResult) : PentanomialResult :=
  match r1, r2 with
  | .whiteWin, .blackWin => { acc with ll := acc.ll + 1 }
  | .whiteWin, .draw => { acc with dl := acc.dl + 1 }
  | .draw, .blackWin => { acc with dl := acc.dl + 1 }
  | .whiteWin, .whiteWin => { acc with wl := acc.wl + 1 }
  | .blackWin, .blackWin => { acc with wl := acc.wl + 1 }
  | .draw, .draw => { acc with dd := acc.dd + 1 }
  | .blackWin, .draw => { acc with wd := acc.wd + 1 }
  | .draw, .whiteWin => { acc with wd := acc.wd + 1 }
  | .blackWin, .whiteWin => { acc with ww := acc.ww + 1 }

/-- The fold over the filtered chunks in `Tournament::sprt_penta_stats`.
Each finished-games slot is `Option (Option GameResult)`: the outer `Option`
is the `finished_games[r] : Option<Game>` slot, the inner one the game's
`game_result()`. `pair[0]`/`pair[1]` indexing out of bounds and `unwrap` of a
`None` slot are Rust panics, modelled by `none`. -/
def sprt_penta_stats_go :
    PentanomialResult → List (List (Option (Option GameResult))) → Option PentanomialResult
  | acc, [] => some acc
  | acc, pair :: rest =>
      match pair[0]?, pair[1]? with
      | some og1, some og2 =>
          match og1, og2 with
          | some g1, some g2 =>
              sprt_penta_stats_go (penta_add acc (g1.getD .draw) (g2.getD .draw)) rest
          | _, _ => none
      | _, _ => none

/-- `Tournament::sprt_penta_stats` (tournament.rs:506-534): chunk the
finished-games vector into pairs, keep the chunks whose slots are all
occupied, and classify each pair. -/
def sprt_penta_stats (finished_games : List (Option (Option GameResult))) :
    Option PentanomialResult :=
  sprt_penta_stats_go ⟨0, 0, 0, 0, 0, 0⟩
    ((chunks2 finished_games).filter fun p => p.all Option.isSome)

/-- C2: the pair classification follows the claim's table on complete pairs
(second conjunct; `(BlackWin, WhiteWin) ↦ WW`, a `None` result read as a
draw, a pair containing an absent game skipped), but on an odd-length
finished-games vector whose final game is present the code panics
(first conjunct, `none`): the singleton trailing chunk passes the
`all is_some` filter and `game_pair[1]` indexes out of bounds. -/
theorem sprt_penta_stats_eval :
    sprt_penta_stats [some (some .whiteWin)] = none ∧
    sprt_penta_stats [some (some .blackWin), some (some .whiteWin),
      some (some .blackWin), some none, none, some (some .draw)] =
      some ⟨0, 0, 0, 0, 1, 1⟩ := by
  constructor <;> rfl

/-- Rust `str::split('+')` on a character list: splits at every separator,
keeping empty segments (`"" ↦ [""]`, `"+" ↦ ["", ""]`). -/
def splitOnChar (c : Char) : List Char → List (List Char)
  | [] => [[]]
  | x :: rest =>
      if x = c then [] :: splitOnChar c rest
      else
        match splitOnChar c rest with
        | g :: gs => (x :: g) :: gs
        | [] => [[x]]

/-- Digit-string to number: `some` iff nonempty and all characters are
decimal digits. -/
def charDigits (cs : List Char) : Option Nat :=
  if cs ≠ [] ∧ cs.all Char.isDigit then
    some (cs.foldl (fun n c => n * 10 + (c.toNat - 48)) 0)
  else none

/-- `f64::from_str` on an unsigned decimal literal (`digits`, `digits.`,
`digits.digits`, `.digits`), modelled exactly over `ℚ`. Exponent, `inf` and
`nan` forms accepted by Rust are outside the scope of the time-control claim
and are not modelled. -/
def f64_from_str_core (cs : List Char) : Option ℚ :=
  let intPart := cs.takeWhile fun c => c ≠ '.'
  match cs.dropWhile fun c => c ≠ '.' with
  | [] => (charDigits intPart).map fun v => (v : ℚ)
  | _ :: fracPart =>
      if fracPart.contains '.' then none
      else
        match intPart, fracPart with
        | [], [] => none
        | [], fs => (charDigits fs).map fun v => (v : ℚ) / (10 ^ fs.length : ℚ)
        | is, [] => (charDigits is).map fun v => (v : ℚ)
        | is, fs =>
            match charDigits is, charDigits fs with
            | some iv, some fv => some ((iv : ℚ) + (fv : ℚ) / (10 ^ fs.length : ℚ))
            | _, _ => none

/-- `f64::from_str` with an optional leading sign. -/
def f64_from_str_chars (cs : List Char) : Option ℚ :=
  match cs with
  | '-' :: rest => (f64_from_str_core rest).map fun q => -q
  | '+' :: rest => f64_from_str_core rest
  | _ => f64_from_str_core cs

/-- The Rust cast `x as u64` on an `f64`: saturating, truncating toward zero
(negative values to 0, values past `u64::MAX` to `u64::MAX`). -/
def f64_as_u64 (q : ℚ) : Nat :=
  if q < 0 then 0 else min (⌊q⌋.toNat) (2 ^ 64 - 1)

/-- `parse_tc` (uci/parser.rs:334-348): split on `'+'`, parse the time part
and the optional increment part as `f64` seconds, and convert each via
`Duration::from_millis((x * 1000.0) as u64)`. Extra `'+'`-separated parts are
ignored, as in the source. -/
def parse_tc (input : String) : Option (Nat × Nat) :=
  match splitOnChar '+' input.toList with
  | [] => none
  | time_part :: rest =>
      match f64_from_str_chars time_part with
      | none => none
      | some t =>
          let time := f64_as_u64 (t * 1000)
          match rest with
          | [] => some (time, 0)
          | inc_part :: _ =>
              match f64_from_str_chars inc_part with
              | none => none
              | some i => some (time, f64_as_u64 (i * 1000))

/-- Modelled from the spec: convert each part to integer milliseconds via
`round(x * 1000)` (the claim's conversion rule) instead of the source's
truncating cast. Stated only to compare with `parse_tc`. -/
def spec_parse_tc (input : String) : Option (Nat × Nat) :=
  match splitOnChar '+' input.toList with
  | [] => none
  | time_part :: rest =>
      match f64_from_str_chars time_part with
      | none => none
      | some t =>
          let time := (round (t * 1000) : ℤ).toNat
          match rest with
          | [] => some (time, 0)
          | inc_part :: _ =>
              match f64_from_str_chars inc_part with
              | none => none
              | some i => some (time, (round (i * 1000) : ℤ).toNat)

theorem parse_tc_two_parts (input : String) (t i : List Char) (qt qi : ℚ)
    (hsplit : splitOnChar '+' input.toList = [t, i])
    (ht : f64_from_str_chars t = some qt) (hi : f64_from_str_chars i = some qi) :
    parse_tc input = some (f64_as_u64 (qt * 1000), f64_as_u64 (qi * 1000)) := by
  simp only [String.toList] at hsplit
  simp [parse_tc, hsplit, ht, hi]

theorem parse_tc_one_part (input : String) (t : List Char) (qt : ℚ)
    (hsplit : splitOnChar '+' input.toList = [t])
    (ht : f64_from_str_chars t = some qt) :
    parse_tc input = some (f64_as_u64 (qt * 1000), 0) := by
  simp only [String.toList] at hsplit
  simp [parse_tc, hsplit, ht]

theorem spec_parse_tc_one_part (input : String) (t : List Char) (qt : ℚ)
    (hsplit : splitOnChar '+' input.toList = [t])
    (ht : f64_from_str_chars t = some qt) :
    spec_parse_tc input = some ((round (qt * 1000) : ℤ).toNat, 0) := by
  simp only [String.toList] at hsplit
  simp [spec_parse_tc, hsplit, ht]

theorem f64_as_u64_small (q : ℚ) (h0 : 0 ≤ q) (h1 : ⌊q⌋.toNat < 2 ^ 64 - 1) :
    f64_as_u64 q = ⌊q⌋.toNat := by
  rw [f64_as_u64, if_neg (not_lt.mpr h0)]
  exact Nat.min_eq_left (Nat.le_of_lt h1)

/-- C7 counterexample: the claim's conversion rule is `round(x·1000)`, but the
source truncates (`as u64`): on the input `"0.0006"` (0.6 ms) the code
returns 0 ms where the claim's rounding rule gives 1 ms. -/
theorem parse_tc_ne_spec_parse_tc :
    parse_tc ("0.0006") = some (0, 0) ∧
    spec_parse_tc ("0.0006") = some (1, 0) ∧
    parse_tc ("0.0006") ≠ spec_parse_tc ("0.0006") := by
  have hsplit : splitOnChar '+' ("0.0006").toList = [['0', '.', '0', '0', '0', '6']] := by
    decide
  have hf : f64_from_str_chars ['0', '.', '0', '0', '0', '6'] =
      some (((0 : Nat) : ℚ) + ((6 : Nat) : ℚ) / (10 ^ (4 : Nat) : ℚ)) := rfl
  have h1 : parse_tc ("0.0006") = some (0, 0) := by
    rw [parse_tc_one_part _ _ _ hsplit hf]
    have : f64_as_u64 ((((0 : Nat) : ℚ) + ((6 : Nat) : ℚ) / (10 ^ (4 : Nat) : ℚ)) * 1000) = 0 := by
      rw [f64_as_u64_small _ (by norm_num) (by norm_num)]
      norm_num
    rw [this]
  have h2 : spec_parse_tc ("0.0006") = some (1, 0) := by
    rw [spec_parse_tc_one_part _ _ _ hsplit hf]
    norm_num
    rw [round_eq]
    norm_num
  refine ⟨h1, h2, ?_⟩
  rw [h1, h2]
  decide

/-- C7 amended: `parse_tc` parses `T` or `T+I` decimal-second strings and
converts each part to milliseconds by the truncating cast
`(x * 1000.0) as u64` (floor for nonnegative values, saturating at
`u64::MAX`), not by rounding; unparsable parts fail. On the spec's example
inputs truncation and rounding agree. -/
theorem parse_tc_spec :
    parse_tc ("60+0.6") = some (60000, 600) ∧
    parse_tc ("0.5+0.1") = some (500, 100) ∧
    parse_tc ("5") = some (5000, 0) ∧
    parse_tc ("abc") = none ∧
    parse_tc ("0.0006") = some (0, 0) ∧
    (∀ q : ℚ, 0 ≤ q → (f64_as_u64 q : ℤ) = min ⌊q⌋ (2 ^ 64 - 1)) := by
  refine ⟨?_, ?_, ?_, ?_, ?_, ?_⟩
  · have hsplit : splitOnChar '+' ("60+0.6").toList = [['6', '0'], ['0', '.', '6']] := by
      decide
    have hf1 : f64_from_str_chars ['6', '0'] = some ((60 : Nat) : ℚ) := rfl
    have hf2 : f64_from_str_chars ['0', '.', '6'] =
        some (((0 : Nat) : ℚ) + ((6 : Nat) : ℚ) / (10 ^ (1 : Nat) : ℚ)) := rfl
    rw [parse_tc_two_parts _ _ _ _ _ hsplit hf1 hf2,
      f64_as_u64_small _ (by norm_num) (by norm_num),
      f64_as_u64_small _ (by norm_num) (by norm_num)]
    norm_num
    decide
  · have hsplit : splitOnChar '+' ("0.5+0.1").toList =
        [['0', '.', '5'], ['0', '.', '1']] := by decide
    have hf1 : f64_from_str_chars ['0', '.', '5'] =
        some (((0 : Nat) : ℚ) + ((5 : Nat) : ℚ) / (10 ^ (1 : Nat) : ℚ)) := rfl
    have hf2 : f64_from_str_chars ['0', '.', '1'] =
        some (((0 : Nat) : ℚ) + ((1 : Nat) : ℚ) / (10 ^ (1 : Nat) : ℚ)) := rfl
    rw [parse_tc_two_parts _ _ _ _ _ hsplit hf1 hf2,
      f64_as_u64_small _ (by norm_num) (by norm_num),
      f64_as_u64_small _ (by norm_num) (by norm_num)]
    norm_num
    decide
  · have hsplit : splitOnChar '+' ("5").toList = [['5']] := by decide
    have hf : f64_from_str_chars ['5'] = some ((5 : Nat) : ℚ) := rfl
    rw [parse_tc_one_part _ _ _ hsplit hf,
      f64_as_u64_small _ (by norm_num) (by norm_num)]
    norm_num
    decide
  · have hsplit : splitOnChar '+' ("abc").toList = [['a', 'b', 'c']] := by decide
    have hf : f64_from_str_chars ['a', 'b', 'c'] = none := rfl
    simp only [String.toList] at hsplit
    simp [parse_tc, hsplit, hf]
  · have hsplit : splitOnChar '+' ("0.0006").toList = [['0', '.', '0', '0', '0', '6']] := by
      decide
    have hf : f64_from_str_chars ['0', '.', '0', '0', '0', '6'] =
        some (((0 : Nat) : ℚ) + ((6 : Nat) : ℚ) / (10 ^ (4 : Nat) : ℚ)) := rfl
    rw [parse_tc_one_part _ _ _ hsplit hf,
      f64_as_u64_small _ (by norm_num) (by norm_num)]
    norm_num
  · intro q hq
    rw [f64_as_u64, if_neg (not_lt.mpr hq), Nat.cast_min, Int.toNat_of_nonneg
      (Int.floor_nonneg.mpr hq)]
    norm_num

theorem parse_tc_spec_witness :
    (0 ≤ (5 / 2 : ℚ)) ∧ ((f64_as_u64 (5 / 2) : ℤ) = min ⌊(5 / 2 : ℚ)⌋ (2 ^ 64 - 1)) :=
  ⟨by norm_num, parse_tc_spec.2.2.2.2.2 (5 / 2) (by norm_num)⟩

/-- `i64::from_str` (decimal, optional sign, range-checked), used by the
`Spin` branch of `value_is_supported`. -/
def i64_from_str (s : String) : Option Int :=
  let core : List Char → Option Int → Option Int := fun cs sign =>
    match charDigits cs, sign with
    | some n, some sgn =>
        let v : Int := sgn * (n : Int)
        if -(2 ^ 63) ≤ v ∧ v ≤ 2 ^ 63 - 1 then some v else none
    | _, _ => none
  match s.toList with
  | '-' :: rest => core rest (some (-1))
  | '+' :: rest => core rest (some 1)
  | cs => core cs (some 1)

/-- `UciOptionType` (uci/mod.rs:68-74). -/
inductive UciOptionType where
  | check (default : Bool)
  | spin (current min max : Int)
  | combo (current : String) (possible_values : List String)
  | button
  | str (current : String)
deriving DecidableEq, Repr

/-- `UciOptionType::value_is_supported` (uci/mod.rs:77-91). -/
def UciOptionType.value_is_supported : UciOptionType → String → Bool
  | .check _, value => value == "true" || value == "false"
  | .spin _ min max, value =>
      match i64_from_str value with
      | some int_value => decide (min ≤ int_value) && decide (int_value ≤ max)
      | none => false
  | .combo _ possible_values, value => possible_values.any fun e => e == value
  | .button, _ => false
  | .str _, _ => true

/-- `UciOption` (uci/mod.rs:62-65). -/
structure UciOption where
  name : String
  option_type : UciOptionType
deriving DecidableEq, Repr

/-- The slice of `EngineBuilder` (engine.rs:15-21) that the option check
reads. -/
structure EngineBuilder where
  path : String
  desired_uci_options : List (String × String)
deriving DecidableEq, Repr

/-- The slice of the live `Engine` (engine.rs:108-115) that the option check
reads: the declared option list and the builder it was spawned from. -/
structure Engine where
  name : String
  builder : EngineBuilder
  options : List UciOption
deriving DecidableEq, Repr

/-- `Engine::supports_option_value` (engine.rs:193-199): find the first
declared option with the requested name; `false` when none is declared. -/
def Engine.supports_option_value (e : Engine) (name value : String) : Bool :=
  match e.options.find? fun option => option.name == name with
  | some option => option.option_type.value_is_supported value
  | none => false

/-- `Engine::supports_options_from_builder` (engine.rs:160-165). -/
def Engine.supports_options_from_builder (e : Engine) : Bool :=
  e.builder.desired_uci_options.all fun nv => e.supports_option_value nv.1 nv.2

/-- The option gate of `Tournament::initialize_with_options_or_exit`
(tournament.rs:176-202): spawning and the wire protocol are external
effects; the modelled decision is `exit_with_error` (here `.error`) exactly
when the engine does not support the configured options. -/
def init_with_options_or_exit (e : Engine) : Except String Engine :=
  if e.supports_options_from_builder then .ok e
  else .error ("Engine \"" ++ e.name ++ "\" does not support given options")

/-- C10: a desired option whose declared type is `button` is never supported
(`value_is_supported` is `false` for every value, even though the engine
declared the name), so a configuration requesting a value for it makes
`supports_options_from_builder` false and startup aborts with the
unsupported-option error. -/
theorem button_option_never_supported (e : Engine) (name value : String) (o : UciOption)
    (hfind : (e.options.find? fun option => option.name == name) = some o)
    (hbutton : o.option_type = .button)
    (hdesired : (name, value) ∈ e.builder.desired_uci_options) :
    e.supports_option_value name value = false ∧
    e.supports_options_from_builder = false ∧
    init_with_options_or_exit e =
      .error ("Engine \"" ++ e.name ++ "\" does not support given options") := by
  have h1 : e.supports_option_value name value = false := by
    rw [Engine.supports_option_value, hfind]
    simp only
    rw [hbutton]
    rfl
  have h2 : e.supports_options_from_builder = false := by
    rw [Engine.supports_options_from_builder]
    rw [List.all_eq_false]
    exact ⟨(name, value), hdesired, by simp [h1]⟩
  refine ⟨h1, h2, ?_⟩
  rw [init_with_options_or_exit, h2]
  rfl

/-- Concrete engine used by the C10 witness: declares a button option
`Clear Hash`; the configuration requests a value for it. -/
def buttonEngine : Engine :=
  { name := "example"
    builder := { path := "example", desired_uci_options := [("Clear Hash", "1")] }
    options := [{ name := "Clear Hash", option_type := .button }] }

theorem button_option_never_supported_witness :
    ((buttonEngine.options.find? fun option => option.name == "Clear Hash") =
      some { name := "Clear Hash", option_type := .button } ∧
     (UciOption.mk "Clear Hash" .button).option_type = .button ∧
     ("Clear Hash", "1") ∈ buttonEngine.builder.desired_uci_options) ∧
    (buttonEngine.supports_option_value "Clear Hash" "1" = false ∧
     buttonEngine.supports_options_from_builder = false ∧
     init_with_options_or_exit buttonEngine =
       .error ("Engine \"" ++ buttonEngine.name ++ "\" does not support given options")) :=
  ⟨⟨by decide, rfl, by decide⟩,
    button_option_never_supported buttonEngine "Clear Hash" "1"
      { name := "Clear Hash", option_type := .button } (by decide) rfl (by decide)⟩

/-- `board_game_traits::Color`. -/
inductive Color where
  | white
  | black
deriving DecidableEq, Repr

/-- Rust `!color` (`ops::Not` for `Color`). -/
def Color.flip : Color → Color
  | .white => .black
  | .black => .white

/-- The `Display` strings used in termination messages. -/
def Color.toMessage : Color → String
  | .white => "White"
  | .black => "Black"

/-- `forfeit_win_str` (game.rs:25-30). -/
def forfeit_win_str : Color → String
  | .white => "1-0"
  | .black => "0-1"

/-- The position interface used by the game driver (the `PgnPosition` methods
`play_game` calls), kept abstract: the driver treats positions as opaque. -/
structure PositionOps (P M : Type) where
  pgn_game_result : P → Option String
  side_to_move : P → Color
  do_move : P → M → P
  move_from_lan : P → String → Option M
  legal_moves : P → List M

/-- A recorded move: the move plus the data the source formats into the PTN
comment (`±cp/depth time` from the last `info`); the `f64` string formatting
itself is outside the claims and the raw data is kept instead. -/
structure PtnMoveLite (M : Type) where
  mv : M
  comment : Option (Int × Nat × Nat)

/-- One engine interaction during `play_move` (game.rs:272-303) together with
the wall-clock time the move took: a `bestmove` answer (with the retained
`info` data), an EOF/broken-pipe crash, or another fatal I/O error. -/
inductive EngineReply where
  | bestmove (mv : String) (info : Option (Int × Nat)) (time_taken : Nat)
  | crash
  | ioError

/-- Outcome of the driver loop of `ScheduledGame::play_game` (game.rs:75-201).
`finished` carries the loop's `(result, result_description)` pair, the move
list, and the engine replies not yet consumed; `fatalIo` is the `Err` return;
`hung` models an engine that never answers (the Rust read blocks forever). -/
inductive PlayOutcome (M : Type) where
  | finished (result : Option String) (result_description : String)
      (moves : List (PtnMoveLite M)) (rest : List EngineReply)
  | fatalIo
  | hung

/-- Result of handling one engine reply inside the driver loop: either the
loop ends with an outcome, or it continues with the updated position, move
list and clocks. -/
inductive StepResult (P M : Type) where
  | out (outcome : PlayOutcome M)
  | step (position : P) (moves : List (PtnMoveLite M)) (white_time black_time : Nat)

/-- The per-reply body of the loop of `ScheduledGame::play_game`
(game.rs:118-200): crash recovery, move decoding, legality check, move
application (the comment keeps the raw score data, sign-flipped for Black as
in the source), and the mover's clock update (times in milliseconds). -/
def play_game_move_step {P M : Type} [DecidableEq M] (ops : PositionOps P M) (position : P)
    (moves : List (PtnMoveLite M)) (white_time black_time white_inc black_inc : Nat)
    (reply : EngineReply) (rest : List EngineReply) : StepResult P M :=
  match reply with
  | .ioError => .out .fatalIo
  | .crash =>
      .out (.finished (some (forfeit_win_str (ops.side_to_move position).flip))
        ((ops.side_to_move position).toMessage ++ " disconnected or crashed") moves rest)
  | .bestmove move_string info time_taken =>
      match ops.move_from_lan position move_string with
      | none =>
          .out (.finished (some (forfeit_win_str (ops.side_to_move position).flip))
            ((ops.side_to_move position).toMessage ++ " sent a malformed move") moves rest)
      | some mv =>
          if mv ∈ ops.legal_moves position then
            let position2 := ops.do_move position mv
            let comment := info.map fun i =>
              (match ops.side_to_move position2 with
                | .white => -i.1
                | .black => i.1, i.2, time_taken)
            let moves2 := moves ++ [⟨mv, comment⟩]
            match (ops.side_to_move position2).flip with
            | .white =>
                if time_taken ≤ white_time then
                  .step position2 moves2 (white_time - time_taken + white_inc) black_time
                else .out (.finished (some "0-1") "Black wins on time" moves2 rest)
            | .black =>
                if time_taken ≤ black_time then
                  .step position2 moves2 white_time (black_time - time_taken + black_inc)
                else .out (.finished (some "1-0") "White wins on time" moves2 rest)
          else
            .out (.finished (some (forfeit_win_str (ops.side_to_move position).flip))
              ((ops.side_to_move position).toMessage ++ " made an illegal move") moves rest)

/-- The game loop of `ScheduledGame::play_game` (game.rs:75-201): check the
1000-half-move limit, then the terminal result, then consume the next
`EngineReply` with `play_game_move_step` and continue. -/
def play_game_loop {P M : Type} [DecidableEq M] (ops : PositionOps P M) :
    P → List (PtnMoveLite M) → Nat → Nat → Nat → Nat → List EngineReply → PlayOutcome M
  | position, moves, white_time, black_time, white_inc, black_inc, replies =>
  if moves.length > 1000 then
    .finished none
      ("Game terminated after reaching " ++ toString (moves.length / 2) ++ " moves.")
      moves replies
  else
    match ops.pgn_game_result position with
    | some result => .finished (some result) "" moves replies
    | none =>
        match replies with
        | [] => .hung
        | reply :: rest =>
            match play_game_move_step ops position moves white_time black_time
                white_inc black_inc reply rest with
            | .out outcome => outcome
            | .step position2 moves2 white_time2 black_time2 =>
                play_game_loop ops position2 moves2 white_time2 black_time2
                  white_inc black_inc rest
termination_by structural _ _ _ _ _ _ replies => replies

/-- The tag push at game.rs:259-261: a `Termination` tag is appended exactly
when the loop's `result_description` is non-empty. The other tags (Site,
players, Round, Size, Date, Clock, Komi) are environment data passed in as
`tags`. -/
def push_termination_tag (tags : List (String × String)) (result_description : String) :
    List (String × String) :=
  if result_description.isEmpty then tags else tags ++ [("Termination", result_description)]

/-- C9: when more than 1000 half-moves have been played, the driver loop ends
the game immediately with `result = none` and the max-length termination
message, consuming no further engine reply (the `replies` oracle is returned
untouched), the message is non-empty, and the assembled tags carry it as a
`Termination` tag. -/
theorem max_game_length_termination {P M : Type} [DecidableEq M] (ops : PositionOps P M)
    (position : P)
    (moves : List (PtnMoveLite M)) (white_time black_time white_inc black_inc : Nat)
    (replies : List EngineReply) (tags : List (String × String))
    (hlen : 1000 < moves.length) :
    play_game_loop ops position moves white_time black_time white_inc black_inc replies =
      .finished none
        ("Game terminated after reaching " ++ toString (moves.length / 2) ++ " moves.")
        moves replies ∧
    ("Game terminated after reaching " ++ toString (moves.length / 2) ++ " moves.") ≠ "" ∧
    ("Termination",
        "Game terminated after reaching " ++ toString (moves.length / 2) ++ " moves.") ∈
      push_termination_tag tags
        ("Game terminated after reaching " ++ toString (moves.length / 2) ++ " moves.") := by
  have hne0 : ("Game terminated after reaching " ++ toString (moves.length / 2) ++
      " moves.") ≠ "" := by
    intro h
    have hlen2 := congrArg String.length h
    rw [String.length_append, String.length_append] at hlen2
    have h31 : ("Game terminated after reaching ").length = 31 := by decide
    have h00 : ("" : String).length = 0 := by decide
    omega
  have hne : ("Game terminated after reaching " ++ toString (moves.length / 2) ++
      " moves.").isEmpty = false := by
    rw [Bool.eq_false_iff]
    intro h
    exact hne0 ((String.isEmpty_iff _).mp h)
  refine ⟨?_, hne0, ?_⟩
  · cases replies with
    | nil =>
        rw [play_game_loop.eq_1]
        exact if_pos hlen
    | cons reply rest =>
        rw [play_game_loop.eq_2]
        exact if_pos hlen
  · rw [push_termination_tag, hne]
    simp

/-- Trivial position operations over `Unit`, used by the C9 witness. -/
def unitOps : PositionOps Unit Unit :=
  { pgn_game_result := fun _ => none
    side_to_move := fun _ => .white
    do_move := fun _ _ => ()
    move_from_lan := fun _ _ => none
    legal_moves := fun _ => [] }

theorem max_game_length_termination_witness :
    1000 < (List.replicate 1001 (PtnMoveLite.mk () none)).length ∧
    (play_game_loop unitOps () (List.replicate 1001 (PtnMoveLite.mk () none)) 1 1 0 0
        [.crash] =
      .finished none
        ("Game terminated after reaching " ++
          toString ((List.replicate 1001 (PtnMoveLite.mk () none)).length / 2) ++ " moves.")
        (List.replicate 1001 (PtnMoveLite.mk () none)) [.crash] ∧
    ("Game terminated after reaching " ++
        toString ((List.replicate 1001 (PtnMoveLite.mk () none)).length / 2) ++ " moves.") ≠
      "" ∧
    ("Termination",
        "Game terminated after reaching " ++
          toString ((List.replicate 1001 (PtnMoveLite.mk () none)).length / 2) ++
          " moves.") ∈
      push_termination_tag []
        ("Game terminated after reaching " ++
          toString ((List.replicate 1001 (PtnMoveLite.mk () none)).length / 2) ++
          " moves.")) :=
  ⟨by rw [List.length_replicate]; norm_num,
    max_game_length_termination unitOps () _ 1 1 0 0 [.crash] []
      (by rw [List.length_replicate]; norm_num)⟩

/-- `PgnWriter` (pgn_writer.rs:122-126): the underlying `Write` sink is
modelled as the ordered list of games written so far. -/
structure PgnWriter (G : Type) where
  output : List (Nat × G)
  pending_games : List (Nat × G)
  next_game_number : Nat

/-- The `sort_by_key(|(game_number, _)| *game_number)` order. -/
def byRound {G : Type} : (Nat × G) → (Nat × G) → Prop := fun a b => a.1 ≤ b.1

instance {G : Type} : DecidableRel (byRound (G := G)) := fun a b => Nat.decLe a.1 b.1

instance {G : Type} : IsTotal (Nat × G) byRound := ⟨fun a b => Nat.le_total a.1 b.1⟩

instance {G : Type} : IsTrans (Nat × G) byRound := ⟨fun _ _ _ h1 h2 => Nat.le_trans h1 h2⟩

/-- The `while` loop of `PgnWriter::try_write_games` (pgn_writer.rs:144-152):
while the first pending game has the next round number, remove it and write
it. Each iteration removes one pending game, so `pending_games.length` fuel
is exact. -/
def try_write_games_go {G : Type} : Nat → PgnWriter G → PgnWriter G
  | 0, w => w
  | fuel + 1, w =>
      match w.pending_games with
      | [] => w
      | (n, g) :: rest =>
          if n = w.next_game_number then
            try_write_games_go fuel
              { output := w.output ++ [(n, g)], pending_games := rest,
                next_game_number := w.next_game_number + 1 }
          else w

/-- `PgnWriter::try_write_games` (pgn_writer.rs:144-152). -/
def try_write_games {G : Type} (w : PgnWriter G) : PgnWriter G :=
  try_write_games_go w.pending_games.length w

/-- `PgnWriter::submit_game` (pgn_writer.rs:137-142): push the game, sort the
pending list by round number (Rust `sort_by_key` is a stable sort; with
distinct round numbers any sort agrees), then drain. -/
def submit_game {G : Type} (w : PgnWriter G) (game_number : Nat) (game : G) : PgnWriter G :=
  try_write_games
    { w with pending_games :=
        List.insertionSort byRound (w.pending_games ++ [(game_number, game)]) }

/-- `PgnWriter::new` (pgn_writer.rs:129-135). -/
def pgn_writer_new {G : Type} : PgnWriter G := ⟨[], [], 0⟩

/-- A sequence of `submit_game` calls against a fresh writer. -/
def runSubmits {G : Type} (subs : List (Nat × G)) : PgnWriter G :=
  subs.foldl (fun w p => submit_game w p.1 p.2) pgn_writer_new

/-- Invariant tying a writer to the set `S` of round numbers submitted so
far: the output is exactly rounds `0, …, next-1` in order, pending rounds are
sorted and strictly above `next`, and `S` splits into written and pending. -/
def WriterInv {G : Type} (w : PgnWriter G) (S : List Nat) : Prop :=
  w.output.map Prod.fst = List.range w.next_game_number ∧
  (w.pending_games.map Prod.fst).Sorted (· < ·) ∧
  (∀ k ∈ w.pending_games.map Prod.fst, w.next_game_number < k) ∧
  (∀ k, k ∈ S ↔ (k < w.next_game_number ∨ k ∈ w.pending_games.map Prod.fst))

theorem try_write_games_go_spec {G : Type} :
    ∀ (fuel : Nat) (w : PgnWriter G),
      w.pending_games.length ≤ fuel →
      (w.pending_games.map Prod.fst).Sorted (· < ·) →
      (∀ k ∈ w.pending_games.map Prod.fst, w.next_game_number ≤ k) →
      w.output.map Prod.fst = List.range w.next_game_number →
      ((try_write_games_go fuel w).output.map Prod.fst =
          List.range (try_write_games_go fuel w).next_game_number) ∧
      ((try_write_games_go fuel w).pending_games.map Prod.fst).Sorted (· < ·) ∧
      (∀ k ∈ (try_write_games_go fuel w).pending_games.map Prod.fst,
          (try_write_games_go fuel w).next_game_number < k) ∧
      (∀ k, (k < (try_write_games_go fuel w).next_game_number ∨
          k ∈ (try_write_games_go fuel w).pending_games.map Prod.fst) ↔
          (k < w.next_game_number ∨ k ∈ w.pending_games.map Prod.fst)) := by
  intro fuel
  induction fuel with
  | zero =>
      intro w hlen hsort hge hout
      have hpe : w.pending_games = [] := List.eq_nil_of_length_eq_zero (Nat.le_zero.mp hlen)
      have hw : try_write_games_go 0 w = w := rfl
      rw [hw]
      refine ⟨hout, hsort, ?_, fun k => Iff.rfl⟩
      intro k hk
      rw [hpe] at hk
      simp at hk
  | succ fuel ih =>
      intro w hlen hsort hge hout
      cases hpg : w.pending_games with
      | nil =>
          have hw : try_write_games_go (fuel + 1) w = w := by
            conv_lhs => rw [try_write_games_go, hpg]
          rw [hw]
          refine ⟨hout, hsort, ?_, fun k => by rw [hpg]⟩
          intro k hk
          rw [hpg] at hk
          simp at hk
      | cons p rest =>
          obtain ⟨n, g⟩ := p
          rw [hpg] at hsort hge hlen
          by_cases hn : n = w.next_game_number
          · have hstep : try_write_games_go (fuel + 1) w =
                try_write_games_go fuel
                  { output := w.output ++ [(n, g)], pending_games := rest,
                    next_game_number := w.next_game_number + 1 } := by
              conv_lhs => rw [try_write_games_go, hpg]
              exact if_pos hn
            have hlen2 : rest.length ≤ fuel := by
              simp at hlen
              omega
            have hsort2 : (rest.map Prod.fst).Sorted (· < ·) := by
              rw [List.map_cons] at hsort
              exact hsort.of_cons
            have hhead : ∀ k ∈ rest.map Prod.fst, n < k := by
              rw [List.map_cons] at hsort
              exact List.rel_of_sorted_cons hsort
            have hge2 : ∀ k ∈ rest.map Prod.fst, w.next_game_number + 1 ≤ k := by
              intro k hk
              have := hhead k hk
              omega
            have hout2 : (w.output ++ [(n, g)]).map Prod.fst =
                List.range (w.next_game_number + 1) := by
              rw [List.map_append, hout, List.range_succ, List.map_cons, List.map_nil, hn]
            obtain ⟨a2, b2, c2, d2⟩ :=
              ih { output := w.output ++ [(n, g)], pending_games := rest,
                   next_game_number := w.next_game_number + 1 } hlen2 hsort2 hge2 hout2
            rw [hstep]
            refine ⟨a2, b2, c2, ?_⟩
            intro k
            rw [d2 k]
            simp only [List.map_cons, List.mem_cons]
            constructor
            · rintro (h | h)
              · rcases Nat.lt_or_ge k w.next_game_number with h2 | h2
                · exact Or.inl h2
                · exact Or.inr (Or.inl (by omega))
              · exact Or.inr (Or.inr h)
            · rintro (h | h | h)
              · exact Or.inl (by omega)
              · exact Or.inl (by omega)
              · exact Or.inr h
          · have hstep : try_write_games_go (fuel + 1) w = w := by
              conv_lhs => rw [try_write_games_go, hpg]
              exact if_neg hn
            rw [hstep]
            refine ⟨hout, by rw [hpg]; exact hsort, ?_, fun k => by rw [hpg]⟩
            intro k hk
            rw [hpg, List.map_cons] at hk
            rcases List.mem_cons.mp hk with hk0 | hk1
            · subst hk0
              have := hge k (by rw [List.map_cons]; exact List.mem_cons_self _ _)
              omega
            · have h1 : n < k := by
                rw [List.map_cons] at hsort
                exact List.rel_of_sorted_cons hsort k hk1
              have h2 := hge n (by rw [List.map_cons]; exact List.mem_cons_self _ _)
              omega

theorem submit_game_inv {G : Type} (w : PgnWriter G) (S : List Nat) (n : Nat) (g : G)
    (hinv : WriterInv w S) (hn : n ∉ S) : WriterInv (submit_game w n g) (n :: S) := by
  obtain ⟨hout, hsort, hgt, hS⟩ := hinv
  have hperm : (List.insertionSort byRound (w.pending_games ++ [(n, g)])).Perm
      (w.pending_games ++ [(n, g)]) := List.perm_insertionSort _ _
  have hkeysperm :
      ((List.insertionSort byRound (w.pending_games ++ [(n, g)])).map Prod.fst).Perm
        (w.pending_games.map Prod.fst ++ [n]) := by
    have h1 := hperm.map Prod.fst
    simpa using h1
  have hmem : ∀ k,
      k ∈ (List.insertionSort byRound (w.pending_games ++ [(n, g)])).map Prod.fst ↔
        (k ∈ w.pending_games.map Prod.fst ∨ k = n) := by
    intro k
    rw [hkeysperm.mem_iff]
    simp
  have hn_notin_old : n ∉ w.pending_games.map Prod.fst :=
    fun hk => hn ((hS n).mpr (Or.inr hk))
  have hnodup2 :
      ((List.insertionSort byRound (w.pending_games ++ [(n, g)])).map Prod.fst).Nodup := by
    rw [hkeysperm.nodup_iff]
    rw [List.nodup_append]
    refine ⟨hsort.nodup, List.nodup_singleton n, ?_⟩
    intro k hk
    simp only [List.mem_singleton]
    intro h
    subst h
    exact hn_notin_old hk
  have hsorted2le :
      ((List.insertionSort byRound (w.pending_games ++ [(n, g)])).map Prod.fst).Sorted
        (· ≤ ·) := by
    have hs : (List.insertionSort byRound (w.pending_games ++ [(n, g)])).Sorted byRound :=
      List.sorted_insertionSort byRound _
    rw [List.Sorted, List.pairwise_map]
    exact hs
  have hsorted2 :
      ((List.insertionSort byRound (w.pending_games ++ [(n, g)])).map Prod.fst).Sorted
        (· < ·) := by
    have hc := hsorted2le.and hnodup2
    exact hc.imp fun h => lt_of_le_of_ne h.1 h.2
  have hge2 : ∀ k ∈ (List.insertionSort byRound (w.pending_games ++ [(n, g)])).map Prod.fst,
      w.next_game_number ≤ k := by
    intro k hk
    rcases (hmem k).mp hk with hk1 | hk2
    · exact Nat.le_of_lt (hgt k hk1)
    · subst hk2
      by_contra h
      exact hn ((hS k).mpr (Or.inl (by omega)))
  obtain ⟨a2, b2, c2, d2⟩ := try_write_games_go_spec
    (List.insertionSort byRound (w.pending_games ++ [(n, g)])).length
    { w with pending_games := List.insertionSort byRound (w.pending_games ++ [(n, g)]) }
    (Nat.le_refl _) hsorted2 hge2 hout
  refine ⟨a2, b2, c2, ?_⟩
  intro k
  have hd2 : (k < (submit_game w n g).next_game_number ∨
      k ∈ (submit_game w n g).pending_games.map Prod.fst) ↔
      (k < w.next_game_number ∨
        k ∈ (List.insertionSort byRound (w.pending_games ++ [(n, g)])).map Prod.fst) := d2 k
  rw [List.mem_cons, hS k, hd2, hmem k]
  tauto

theorem runSubmits_inv {G : Type} :
    ∀ (subs : List (Nat × G)) (w : PgnWriter G) (S : List Nat),
      WriterInv w S → (∀ k ∈ subs.map Prod.fst, k ∉ S) → (subs.map Prod.fst).Nodup →
      ∃ S2, WriterInv (subs.foldl (fun w p => submit_game w p.1 p.2) w) S2 ∧
        ∀ k, k ∈ S2 ↔ (k ∈ subs.map Prod.fst ∨ k ∈ S) := by
  intro subs
  induction subs with
  | nil =>
      intro w S hinv _ _
      exact ⟨S, hinv, fun k => by simp⟩
  | cons p rest ih =>
      intro w S hinv hfresh hnodup
      have hp_notin : p.1 ∉ S := hfresh p.1 (by simp)
      have hinv1 : WriterInv (submit_game w p.1 p.2) (p.1 :: S) :=
        submit_game_inv w S p.1 p.2 hinv hp_notin
      have hfresh1 : ∀ k ∈ rest.map Prod.fst, k ∉ p.1 :: S := by
        intro k hk
        rw [List.mem_cons]
        rintro (h | h)
        · rw [List.map_cons] at hnodup
          rw [List.nodup_cons] at hnodup
          exact hnodup.1 (h ▸ hk)
        · exact hfresh k (by rw [List.map_cons]; exact List.mem_cons_of_mem _ hk) h
      have hnodup1 : (rest.map Prod.fst).Nodup := by
        rw [List.map_cons, List.nodup_cons] at hnodup
        exact hnodup.2
      obtain ⟨S2, hinv2, hmem2⟩ := ih (submit_game w p.1 p.2) (p.1 :: S) hinv1 hfresh1 hnodup1
      refine ⟨S2, ?_, ?_⟩
      · simpa using hinv2
      · intro k
        rw [hmem2 k]
        simp only [List.map_cons, List.mem_cons]
        tauto

/-- C5: for any sequence of `submit_game(round, game)` calls with pairwise
distinct round numbers, the writer's output is the rounds `0, 1, 2, …` in
strictly increasing order; a submitted round `r` has been written iff every
round below `r` has also been submitted; and every submission is either
written or still held pending in memory. -/
theorem pgn_writer_ordered {G : Type} (subs : List (Nat × G))
    (hnodup : (subs.map Prod.fst).Nodup) :
    ((runSubmits subs).output.map Prod.fst =
        List.range ((runSubmits subs).output.length)) ∧
    (∀ r ∈ subs.map Prod.fst,
        (r ∈ (runSubmits subs).output.map Prod.fst ↔ ∀ i < r, i ∈ subs.map Prod.fst)) ∧
    ((runSubmits subs).output.map Prod.fst ++
        (runSubmits subs).pending_games.map Prod.fst).Perm (subs.map Prod.fst) := by
  have hinv0 : WriterInv (pgn_writer_new (G := G)) [] := by
    refine ⟨rfl, List.sorted_nil, ?_, ?_⟩
    · intro k hk
      simp [pgn_writer_new] at hk
    · intro k
      simp [pgn_writer_new]
  obtain ⟨S2, ⟨hout, hsort, hgt, hS⟩, hmemS2⟩ :=
    runSubmits_inv subs pgn_writer_new [] hinv0 (fun k _ h => by simp at h) hnodup
  have hrs : List.foldl (fun w p => submit_game w p.1 p.2) pgn_writer_new subs =
      runSubmits subs := rfl
  rw [hrs] at hout hsort hgt hS
  have hmemS2' : ∀ k, k ∈ S2 ↔ k ∈ subs.map Prod.fst := by
    intro k
    rw [hmemS2 k]
    simp
  set w := runSubmits subs with hw
  have hlen : w.output.length = w.next_game_number := by
    have h1 := congrArg List.length hout
    simpa using h1
  refine ⟨by rw [hlen]; exact hout, ?_, ?_⟩
  · intro r hr
    rw [hout, List.mem_range]
    constructor
    · intro hlt i hi
      exact (hmemS2' i).mp ((hS i).mpr (Or.inl (by omega)))
    · intro hall
      by_contra hge
      have hnext : w.next_game_number ∈ subs.map Prod.fst := by
        rcases Nat.lt_or_ge w.next_game_number r with h | h
        · exact hall _ h
        · have : w.next_game_number = r := by omega
          rw [this]
          exact hr
      have h2 := (hS w.next_game_number).mp ((hmemS2' _).mpr hnext)
      rcases h2 with h2 | h2
      · omega
      · exact absurd (hgt _ h2) (by omega)
  · rw [List.perm_ext_iff_of_nodup, ]
    · intro k
      rw [List.mem_append, hout, List.mem_range, ← hmemS2' k]
      exact (hS k).symm
    · rw [List.nodup_append]
      refine ⟨by rw [hout]; exact List.nodup_range _, hsort.nodup, ?_⟩
      intro k hk
      rw [hout, List.mem_range] at hk
      intro hk2
      exact absurd (hgt k hk2) (by omega)
    · exact hnodup

/-- Concrete out-of-order submissions used by the C5 witness: round 1 is
submitted before round 0. -/
def outOfOrderSubs : List (Nat × Nat) := [(1, 10), (0, 20)]

theorem pgn_writer_ordered_witness :
    (outOfOrderSubs.map Prod.fst).Nodup ∧
    (((runSubmits outOfOrderSubs).output.map Prod.fst =
        List.range ((runSubmits outOfOrderSubs).output.length)) ∧
     (∀ r ∈ outOfOrderSubs.map Prod.fst,
        (r ∈ (runSubmits outOfOrderSubs).output.map Prod.fst ↔
          ∀ i < r, i ∈ outOfOrderSubs.map Prod.fst)) ∧
     ((runSubmits outOfOrderSubs).output.map Prod.fst ++
        (runSubmits outOfOrderSubs).pending_games.map Prod.fst).Perm
       (outOfOrderSubs.map Prod.fst)) :=
  ⟨by decide, pgn_writer_ordered outOfOrderSubs (by decide)⟩

end Racetrack
